import Mathlib

/-!
Verification of the FunGAP_offline orchestration scripts
(`src/run_augustus.py`, `src/run_blastp.py`).

Lines of the annotation artifact are modelled as `List Char`; every Python
string primitive used by the scripts (`str.replace`, `str.rstrip`, slicing,
the literal regular expressions) is embedded as an executable Lean function
on `List Char`.
-/

namespace FunGAP

abbrev Line := List Char

/-! ### Python string primitives -/

/-- The whitespace characters stripped by Python `str.rstrip()` (ASCII). -/
def pySpace (c : Char) : Bool :=
  c = ' ' || c = '\t' || c = '\n' || c = '\r' || c = Char.ofNat 11 || c = Char.ofNat 12

/-- Python `line.rstrip()`: remove all trailing whitespace. -/
def pyRstrip (s : Line) : Line :=
  (s.reverse.dropWhile pySpace).reverse

/-- Model of `import_file` (run_augustus.py lines 79-83): read the file as a list of
lines, applying `line.rstrip()` to each. The file contents are modelled as the
already-split list of raw lines. -/
def import_file (lines : List Line) : List Line :=
  lines.map pyRstrip

/-- Model of `re.search` with a metacharacter-free pattern: `p` occurs as a contiguous
substring of `l`. -/
def occursWithin (p : Line) (l : Line) : Bool :=
  match l with
  | [] => List.isPrefixOf p []
  | _ :: rest => List.isPrefixOf p l || occursWithin p rest

/-- Recursion worker for `removeAll`. The fuel only bounds the number of
steps; every step consumes at least one character, so fuel `s.length` never
runs out and the `0, s => s` arm is unreachable from `removeAll`. -/
def removeAllAux (p : Line) : Nat → Line → Line
  | _, [] => []
  | 0, s => s
  | fuel + 1, c :: rest =>
    if p ≠ [] ∧ List.isPrefixOf p (c :: rest) then
      removeAllAux p fuel (rest.drop (p.length - 1))
    else c :: removeAllAux p fuel rest

/-- Python `str.replace` with an empty replacement, for a nonempty pattern
`p`: remove all non-overlapping occurrences of `p`, scanning left to
right. -/
def removeAll (p : Line) (s : Line) : Line :=
  removeAllAux p s.length s

/-! ### The three regular expressions of `parse_augustus`
(run_augustus.py lines 128-130) -/

/-- The literal part `\ttranscript\t` of `reg_transcript`. -/
def tTag : Line := "\ttranscript\t".data

/-- The literal part `ID=` of `reg_transcript`. -/
def idKey : Line := "ID=".data

/-- The suffix `ID=([^;]+)` of `reg_transcript`, matched greedily: the
rightmost occurrence of `ID=` followed by at least one non-`;` character
wins (the greedy dot-plus of the regex engine backtracks from the right).
Returns the capture `[^;]+`. -/
def lastValidID (u : Line) : Option Line :=
  match u with
  | [] => none
  | c :: rest =>
    match lastValidID rest with
    | some cap => some cap
    | none =>
      if List.isPrefixOf idKey (c :: rest) then
        let cap := List.takeWhile (fun x => !(x == ';')) ((c :: rest).drop 3)
        if cap = [] then none else some cap
      else none

/-- Model of `reg_transcript.search(line)` for `\ttranscript\t.+ID=([^;]+)`:
the match start is leftmost; after the 12-character tag, `.+` consumes at
least one character before `ID=`, so the `ID=` search starts at offset 13.
Returns `group(1)`. -/
def transcriptCapture (line : Line) : Option Line :=
  match line with
  | c :: rest =>
    match (if List.isPrefixOf tTag (c :: rest) then lastValidID ((c :: rest).drop 13) else none) with
    | some cap => some cap
    | none => transcriptCapture rest
  | [] => none

/-- The literal introducer `# protein sequence = [` of `reg_prot_start`. -/
def seqIntro : Line := "# protein sequence = [".data

/-- Model of `reg_prot_start.search(line)` for `^# protein sequence = \[(\S+)\]*`:
anchored at the line start; after the `[` there must be at least one
non-whitespace character (`\S+`); the trailing `\]*` can always match the
empty string, so it imposes nothing. -/
def protStart (line : Line) : Bool :=
  List.isPrefixOf seqIntro line &&
    match line.drop seqIntro.length with
    | c :: _ => !(pySpace c)
    | [] => false

/-- Model of `reg_prot_end.search(line)` for `\]$`: the line ends with `]`. -/
def protEnd (line : Line) : Bool :=
  line.getLast? == some ']'

/-! ### The noise filter (run_augustus.py lines 135-155) -/

/-- An ASCII apostrophe. -/
def apos : Char := Char.ofNat 39

/-- The ten literal comment patterns excluded by the chain of
`re.search(...): continue` branches. -/
def noisePatterns : List Line :=
  [ "# Evidence for and against this transcript:".data
  , "# % of transcript supported by hints".data
  , "# CDS exons".data
  , "# CDS introns".data
  , "# 5".data ++ [apos] ++ "UTR exons and introns:".data
  , "# 3".data ++ [apos] ++ "UTR exons and introns:".data
  , "# hint groups fully obeyed:".data
  , "# incompatible hint groups:".data
  , "#      E:".data
  , "#     RM:".data ]

/-- A line is skipped by the noise filter iff some pattern occurs in it. -/
def noise (line : Line) : Bool :=
  noisePatterns.any (fun p => occursWithin p line)

/-! ### The extractor state machine (run_augustus.py lines 132-176) -/

/-- The loop state of `parse_augustus`: the `prot_tag` flag, the
`transcript_id` variable (`none` models "not yet assigned": reading it then
raises `NameError`), and the `d_seq` defaultdict in insertion order. -/
structure PState where
  protTag : Bool
  tid : Option Line
  dseq : List (Line × Line)
deriving DecidableEq

/-- Model of `d_seq[k] += v` on a `defaultdict(str)` kept in insertion order. -/
def dAppend (d : List (Line × Line)) (k v : Line) : List (Line × Line) :=
  match d with
  | [] => [(k, v)]
  | (k', v') :: rest => if k' = k then (k', v' ++ v) :: rest else (k', v') :: dAppend rest k v

/-- The sequence data appended on a `prot_end` line (run_augustus.py lines
167-168): the three `replace` calls remove every occurrence of the
introducer, of the hash-space marker, and of the closing bracket. -/
def endSeq (line : Line) : Line :=
  removeAll "]".data (removeAll "# ".data (removeAll seqIntro line))

/-- The sequence data appended on a continuation line (run_augustus.py
lines 173-175): the two `replace` calls remove every occurrence of the
introducer and of the hash-space marker. -/
def contSeq (line : Line) : Line :=
  removeAll "# ".data (removeAll seqIntro line)

/-- One iteration of the `for line in augustus_gff3` loop.
`none` models the `NameError` raised when `d_seq[transcript_id]` is evaluated
before `transcript_id` was ever assigned. -/
def stepLine (st : PState) (line : Line) : Option PState :=
  if noise line then some st
  else
    let st1 : PState :=
      match transcriptCapture line with
      | some t => ⟨st.protTag, some t, st.dseq⟩
      | none => if protStart line then ⟨true, st.tid, st.dseq⟩ else st
    let st2? : Option PState :=
      if protEnd line then
        match st1.tid with
        | none => none
        | some t => some ⟨false, some t, dAppend st1.dseq t (endSeq line)⟩
      else some st1
    match st2? with
    | none => none
    | some st2 =>
      if st2.protTag then
        match st2.tid with
        | none => none
        | some t => some ⟨st2.protTag, some t, dAppend st2.dseq t (contSeq line)⟩
      else some st2

/-- The extraction phase of `parse_augustus`: fold the state machine over the
lines; the result is the final `d_seq` in insertion order. -/
def parse_augustus (lines : List Line) : Option (List (Line × Line)) :=
  (lines.foldlM stepLine ⟨false, none, []⟩).map PState.dseq

/-! ### The FASTA writer (run_augustus.py lines 178-192) -/

/-- Model of `int(...)` on a string of decimal digits. -/
def digitsToNat (ds : Line) : Nat :=
  ds.foldl (fun n c => n * 10 + (c.toNat - 48)) 0

/-- Try to match `g(\d+)\.t\d+$` at the start of `s`: `g`, then a maximal
nonempty digit run (backtracking cannot help, since a shorter run would face
a digit where `\.` is required), then `.t`, then a nonempty all-digit tail
reaching the end of the string. Returns `int(group(1))`. -/
def gtMatchAt (s : Line) : Option Nat :=
  match s with
  | 'g' :: rest =>
    let ds := rest.takeWhile Char.isDigit
    if ds = [] then none
    else
      match rest.dropWhile Char.isDigit with
      | '.' :: 't' :: rest3 =>
        if rest3 ≠ [] ∧ rest3.all Char.isDigit then some (digitsToNat ds) else none
      | _ => none
  | _ => none

/-- Model of the sort-key extraction of run_augustus.py line 183: the
integer value of the first capture of the regex (g, digits, dot-t, digits,
end of string), or `none` when the regex does not match - Python then
raises `AttributeError` on the `.group` call. The search start is
leftmost. -/
def sortKey (s : Line) : Option Nat :=
  match s with
  | [] => none
  | c :: rest =>
    match gtMatchAt (c :: rest) with
    | some n => some n
    | none => sortKey rest

/-- Compute the sort key of every entry, as Python `sorted(..., key=...)`
does before emitting anything; `none` models the raise on the first
non-matching identifier. -/
def decorate : List (Line × Line) → Option (List (Nat × (Line × Line)))
  | [] => some []
  | p :: rest =>
    match sortKey p.1, decorate rest with
    | some k, some krest => some ((k, p) :: krest)
    | _, _ => none

/-- Model of `d_seq_sorted = sorted(d_seq.items(), key=...)`: a stable sort ascending
on the extracted integer key. -/
def d_seq_sorted (d : List (Line × Line)) : Option (List (Line × Line)) :=
  (decorate d).map (fun kd => (List.mergeSort kd (fun a b => Nat.ble a.1 b.1)).map Prod.snd)

/-- Recursion worker for `wrapBody`. Each step consumes 60 characters, so
fuel `s.length` never runs out and the `0` arm is unreachable from
`wrapBody`. -/
def wrapBodyAux : Nat → Line → List Line
  | _, [] => []
  | 0, s => [s]
  | fuel + 1, c :: rest => (c :: rest).take 60 :: wrapBodyAux fuel (rest.drop 59)

/-- The `while i < len(prot_seq)` loop: the body lines `prot_seq[i:i+60]`. -/
def wrapBody (s : Line) : List Line :=
  wrapBodyAux s.length s

/-- The lines written to `augustus.faa`: for each entry in sorted order a
header `>` ++ id, then the wrapped body. `none` models the sort-key raise. -/
def fasta_lines (d : List (Line × Line)) : Option (List Line) :=
  (d_seq_sorted d).map (fun entries =>
    entries.flatMap (fun p => ('>' :: p.1) :: wrapBody p.2))

/-! ### Well-formed annotation inputs

A schema of annotation files in the output shape of AUGUSTUS: a `transcript`
feature line carrying `ID=<tid>`, followed by the protein-sequence comment
block. Identifier characters are letters, digits and dots; sequence segments
are runs of uppercase residue letters. -/

/-- Characters that may appear in a generated transcript identifier. -/
def goodIdChar (c : Char) : Bool :=
  c.isUpper || c.isLower || c.isDigit || c == '.'

/-- A well-formed transcript identifier: nonempty, made of `goodIdChar`s. -/
def goodId (t : Line) : Prop :=
  t ≠ [] ∧ ∀ c ∈ t, goodIdChar c = true

/-- A well-formed protein-sequence segment: a nonempty run of uppercase
residue letters. -/
def goodSeg (s : Line) : Prop :=
  s ≠ [] ∧ ∀ c ∈ s, c.isUpper = true

instance goodId.instDecidable (t : Line) : Decidable (goodId t) :=
  inferInstanceAs (Decidable (t ≠ [] ∧ ∀ c ∈ t, goodIdChar c = true))

instance goodSeg.instDecidable (s : Line) : Decidable (goodSeg s) :=
  inferInstanceAs (Decidable (s ≠ [] ∧ ∀ c ∈ s, c.isUpper = true))

/-- A `transcript` feature line whose attribute field is `ID=<t>`. -/
def tLine (t : Line) : Line :=
  "s\ttranscript\t1\tID=".data ++ t

/-- The comment lines of a protein-sequence block after its first line:
`# <seg>` continuations, the last one closed with `]`. -/
def contLines : List Line → List Line
  | [] => []
  | [s] => ["# ".data ++ (s ++ [']'])]
  | s :: rest => ("# ".data ++ s) :: contLines rest

/-- The comment lines of a whole protein-sequence block: a single-line block
is fully bracketed; a multi-line block opens with the introducer and closes
in its continuation lines. -/
def seqLines : List Line → List Line
  | [] => []
  | [s] => [seqIntro ++ (s ++ [']'])]
  | s :: rest => (seqIntro ++ s) :: contLines rest

/-- One transcript record of a well-formed annotation input. -/
structure TBlock where
  tid : Line
  segs : List Line

/-- The annotation lines of one transcript record. -/
def blockLines (b : TBlock) : List Line :=
  tLine b.tid :: seqLines b.segs

/-- Well-formedness of one transcript record. -/
def goodBlock (b : TBlock) : Prop :=
  goodId b.tid ∧ b.segs ≠ [] ∧ ∀ s ∈ b.segs, goodSeg s

instance goodBlock.instDecidable (b : TBlock) : Decidable (goodBlock b) :=
  inferInstanceAs (Decidable (goodId b.tid ∧ b.segs ≠ [] ∧ ∀ s ∈ b.segs, goodSeg s))

/-! ### Character-class facts -/

lemma goodIdChar_ne (c d : Char) (hd : goodIdChar d = false) (h : goodIdChar c = true) :
    ¬ c = d := by
  intro h2
  subst h2
  rw [h] at hd
  cases hd

lemma isUpper_ne (c d : Char) (hd : d.isUpper = false) (h : c.isUpper = true) :
    ¬ c = d := by
  intro h2
  subst h2
  rw [h] at hd
  cases hd

lemma isUpper_goodIdChar (c : Char) (h : c.isUpper = true) : goodIdChar c = true := by
  simp [goodIdChar, h]

lemma isUpper_not_pySpace (c : Char) (h : c.isUpper = true) : pySpace c = false := by
  have h6 : ¬ pySpace c = true := by
    intro hp
    simp only [pySpace, Bool.or_eq_true, decide_eq_true_eq] at hp
    rcases hp with ((((h2 | h2) | h2) | h2) | h2) | h2 <;> subst h2 <;>
      exact absurd h (by decide)
  simpa using h6

/-! ### Generic list lemmas -/

lemma isPrefixOf_head (c : Char) (p : Line) (d : Char) (rest : Line)
    (h : List.isPrefixOf (c :: p) (d :: rest) = true) : c = d := by
  simp only [List.isPrefixOf, Bool.and_eq_true, beq_iff_eq] at h
  exact h.1

lemma occursWithin_mem (c : Char) (p l : Line) (h : occursWithin (c :: p) l = true) : c ∈ l := by
  induction l with
  | nil => simp [occursWithin, List.isPrefixOf] at h
  | cons d rest ih =>
    rw [occursWithin] at h
    rcases Bool.or_eq_true_iff.mp h with h1 | h1
    · rw [isPrefixOf_head c p d rest h1]
      exact List.mem_cons_self d rest
    · exact List.mem_cons_of_mem d (ih h1)

lemma occursWithin_hash_front (p u : Line) (hu : '#' ∉ u)
    (h : occursWithin ('#' :: p) ('#' :: u) = true) :
    List.isPrefixOf ('#' :: p) ('#' :: u) = true := by
  rw [occursWithin] at h
  rcases Bool.or_eq_true_iff.mp h with h1 | h1
  · exact h1
  · exact absurd (occursWithin_mem '#' p u h1) hu

lemma isPrefixOf_getElem? (p l : Line) (h : List.isPrefixOf p l = true)
    (k : Nat) (hk : k < p.length) : l[k]? = p[k]? := by
  have hp : p <+: l := List.isPrefixOf_iff_prefix.mp h
  have hl : k < l.length := lt_of_lt_of_le hk hp.length_le
  rw [List.getElem?_eq_getElem hk, List.getElem?_eq_getElem hl]
  exact congrArg some (hp.getElem hk).symm

lemma isPrefixOf_self_append (p u : Line) : List.isPrefixOf p (p ++ u) = true :=
  List.isPrefixOf_iff_prefix.mpr (List.prefix_append p u)

lemma getElem?_mem_of_some (l : Line) (k : Nat) (c : Char) (h : l[k]? = some c) : c ∈ l := by
  have hk : k < l.length := by
    by_contra h2
    rw [List.getElem?_eq_none (Nat.le_of_not_lt h2)] at h
    cases h
  rw [List.getElem?_eq_getElem hk] at h
  rw [← Option.some_inj.mp h]
  exact List.getElem_mem hk

/-! ### `removeAll` computation lemmas -/

lemma removeAllAux_no_head (c : Char) (p : Line) (fuel : Nat) (s : Line) (hs : c ∉ s) :
    removeAllAux (c :: p) fuel s = s := by
  induction fuel generalizing s with
  | zero => cases s <;> rfl
  | succ fuel ih =>
    cases s with
    | nil => rfl
    | cons d rest =>
      rw [removeAllAux, if_neg]
      · rw [ih rest (fun h2 => hs (List.mem_cons_of_mem d h2))]
      · intro h2
        exact hs (isPrefixOf_head c p d rest h2.2 ▸ List.mem_cons_self d rest)

lemma removeAll_no_head (c : Char) (p s : Line) (hs : c ∉ s) :
    removeAll (c :: p) s = s :=
  removeAllAux_no_head c p s.length s hs

lemma removeAllAux_single_close (fuel : Nat) (s : Line) (hf : s.length < fuel)
    (hs : ']' ∉ s) : removeAllAux [']'] fuel (s ++ [']']) = s := by
  induction fuel generalizing s with
  | zero => omega
  | succ fuel ih =>
    cases s with
    | nil => simp [removeAllAux, List.isPrefixOf]
    | cons d rest =>
      rw [List.cons_append, removeAllAux, if_neg]
      · rw [ih rest (by simpa using hf) (fun h2 => hs (List.mem_cons_of_mem d h2))]
      · intro h2
        exact hs (isPrefixOf_head ']' [] d (rest ++ [']']) h2.2 ▸
          List.mem_cons_self d rest)

lemma removeAll_single_close (s : Line) (hs : ']' ∉ s) :
    removeAll [']'] (s ++ [']']) = s := by
  have h : (s ++ [']']).length = s.length + 1 := by simp
  rw [removeAll, h]
  exact removeAllAux_single_close (s.length + 1) s (Nat.lt_succ_self _) hs

lemma removeAllAux_self_step (c : Char) (p u : Line) (fuel : Nat) :
    removeAllAux (c :: p) (fuel + 1) ((c :: p) ++ u) = removeAllAux (c :: p) fuel u := by
  rw [List.cons_append, removeAllAux, if_pos]
  · have hdrop : (p ++ u).drop ((c :: p).length - 1) = u := by
      have h2 : (c :: p).length - 1 = p.length := by simp
      rw [h2]
      exact List.drop_left p u
    rw [hdrop]
  · exact ⟨List.cons_ne_nil c p, List.cons_append c p u ▸ isPrefixOf_self_append (c :: p) u⟩

lemma removeAll_self_append (c : Char) (p u : Line) (h : c ∉ u) :
    removeAll (c :: p) ((c :: p) ++ u) = u := by
  have hl : ((c :: p) ++ u).length = (p ++ u).length + 1 := by simp
  rw [removeAll, hl, removeAllAux_self_step, removeAllAux_no_head c p (p ++ u).length u h]

lemma removeAll_cons_miss (c : Char) (p : Line) (d : Char) (rest : Line)
    (h1 : List.isPrefixOf (c :: p) (d :: rest) = false) (h2 : c ∉ rest) :
    removeAll (c :: p) (d :: rest) = d :: rest := by
  have hl : (d :: rest).length = rest.length + 1 := rfl
  rw [removeAll, hl, removeAllAux, if_neg]
  · rw [removeAllAux_no_head c p rest.length rest h2]
  · intro hh
    rw [h1] at hh
    exact absurd hh.2 (by simp)

/-! ### Evaluating the regular expressions on generated line shapes -/

lemma takeWhile_no_semi (t : Line) (h : ∀ c ∈ t, goodIdChar c = true) :
    List.takeWhile (fun x => !(x == ';')) t = t := by
  rw [List.takeWhile_eq_self_iff]
  intro c hc
  simp only [Bool.not_eq_true']
  exact beq_eq_false_iff_ne.mpr (goodIdChar_ne c ';' (by decide) (h c hc))

lemma lastValidID_none_no_eq (u : Line) (h : '=' ∉ u) : lastValidID u = none := by
  induction u with
  | nil => rfl
  | cons c rest ih =>
    rw [lastValidID, ih (fun h2 => h (List.mem_cons_of_mem c h2))]
    have hpre : List.isPrefixOf idKey (c :: rest) = false := by
      cases rest with
      | nil => simp [idKey, List.isPrefixOf]
      | cons d rest2 =>
        cases rest2 with
        | nil => simp [idKey, List.isPrefixOf]
        | cons e rest3 =>
          by_cases he : e = '='
          · subst he
            exact absurd
              (List.mem_cons_of_mem c (List.mem_cons_of_mem d (List.mem_cons_self _ _))) h
          · simp [idKey, List.isPrefixOf]
            intros
            exact fun h3 => he h3.symm
    rw [hpre]
    simp

lemma lastValidID_at_ID (t : Line) (ht : t ≠ []) (h : ∀ c ∈ t, goodIdChar c = true) :
    lastValidID ('I' :: 'D' :: '=' :: t) = some t := by
  have heq : '=' ∉ t := fun h2 => absurd rfl (goodIdChar_ne '=' '=' (by decide) (h '=' h2))
  have h1 : lastValidID t = none := lastValidID_none_no_eq t heq
  have h2 : lastValidID ('=' :: t) = none := by
    rw [lastValidID, h1]
    simp [idKey, List.isPrefixOf]
  have h3 : lastValidID ('D' :: '=' :: t) = none := by
    rw [lastValidID, h2]
    simp [idKey, List.isPrefixOf]
  rw [lastValidID, h3]
  have h4 : List.isPrefixOf idKey ('I' :: 'D' :: '=' :: t) = true := by
    simp [idKey, List.isPrefixOf]
  rw [h4]
  simp only [if_true]
  have h5 : ('I' :: 'D' :: '=' :: t).drop 3 = t := rfl
  rw [h5, takeWhile_no_semi t h]
  simp [ht]

lemma lastValidID_tab_ID (t : Line) (ht : t ≠ []) (h : ∀ c ∈ t, goodIdChar c = true) :
    lastValidID ('\t' :: 'I' :: 'D' :: '=' :: t) = some t := by
  rw [lastValidID, lastValidID_at_ID t ht h]

/-- The transcript regex captures the generated identifier: the tag is found
at offset 1 of `tLine t`, the only `ID=` follows it, and `t` has no `;`. -/
lemma transcriptCapture_tLine (t : Line) (ht : t ≠ []) (h : ∀ c ∈ t, goodIdChar c = true) :
    transcriptCapture (tLine t) = some t := by
  have h0 : transcriptCapture (tLine t) =
      match lastValidID ('\t' :: 'I' :: 'D' :: '=' :: t) with
      | some cap => some cap
      | none => transcriptCapture ('t' :: 'r' :: 'a' :: 'n' :: 's' :: 'c' :: 'r' :: 'i' :: 'p'
          :: 't' :: '\t' :: '1' :: '\t' :: 'I' :: 'D' :: '=' :: t) := rfl
  rw [h0, lastValidID_tab_ID t ht h]

/-- A line without a tab character cannot match the transcript regex. -/
lemma transcriptCapture_no_tab (u : Line) (h : '\t' ∉ u) : transcriptCapture u = none := by
  induction u with
  | nil => rfl
  | cons c rest ih =>
    have hpre : List.isPrefixOf tTag (c :: rest) = false := by
      have hc : ¬ ('\t' == c) = true := by
        simp only [beq_iff_eq]
        exact fun h2 => h (h2 ▸ List.mem_cons_self c rest)
      rw [show tTag = '\t' :: "transcript\t".data from rfl]
      simp only [List.isPrefixOf, Bool.and_eq_true]
      simp [hc]
    rw [transcriptCapture, hpre]
    simp only [Bool.false_eq_true, if_false]
    exact ih (fun h2 => h (List.mem_cons_of_mem c h2))

/-! ### Evaluating the noise filter on generated line shapes -/

lemma noisePatterns_facts : ∀ p ∈ noisePatterns,
    p.head? = some '#' ∧ 2 < p.length ∧ ¬ p[2]? = some 'p' := by decide

lemma noisePatterns_space : ∀ p ∈ noisePatterns,
    (List.range p.length).any (fun k => decide (2 ≤ k) && (p[k]? == some ' ')) = true := by
  decide

/-- Every noise pattern contains `#`; a `#`-free line matches none of them. -/
lemma noise_no_hash (line : Line) (h : '#' ∉ line) : noise line = false := by
  rw [noise, List.any_eq_false]
  intro p hp hinf
  obtain ⟨hhead, -, -⟩ := noisePatterns_facts p hp
  cases p with
  | nil => cases hhead
  | cons c ptail =>
    have hc : c = '#' := by simpa using hhead
    subst hc
    exact h (occursWithin_mem '#' ptail line hinf)

/-- A line of the shape `# <segment>` (no further `#` or space) matches no
noise pattern: each pattern would have to be a prefix, but every pattern has
a space at an index at least 2. -/
lemma noise_hash_space (u : Line) (h1 : '#' ∉ u) (h2 : ' ' ∉ u) :
    noise ('#' :: ' ' :: u) = false := by
  rw [noise, List.any_eq_false]
  intro p hp hinf
  obtain ⟨hhead, -, -⟩ := noisePatterns_facts p hp
  cases p with
  | nil => cases hhead
  | cons c ptail =>
    have hc : c = '#' := by simpa using hhead
    subst hc
    have hnot : '#' ∉ (' ' :: u) := by
      intro hmem
      rcases List.mem_cons.mp hmem with h3 | h3
      · cases h3
      · exact h1 h3
    have hpre := occursWithin_hash_front ptail (' ' :: u) hnot hinf
    obtain ⟨k, hk, hcond⟩ := List.any_eq_true.mp (noisePatterns_space _ hp)
    have hklt : k < ('#' :: ptail).length := List.mem_range.mp hk
    simp only [Bool.and_eq_true, decide_eq_true_eq, beq_iff_eq] at hcond
    obtain ⟨hk2, hsp⟩ := hcond
    have hval : ('#' :: ' ' :: u)[k]? = some ' ' := by
      rw [isPrefixOf_getElem? _ _ hpre k hklt]
      exact hsp
    obtain ⟨k2, rfl⟩ := Nat.exists_eq_add_of_le hk2
    rw [Nat.add_comm 2 k2] at hval
    rw [List.getElem?_cons_succ, List.getElem?_cons_succ] at hval
    exact h2 (getElem?_mem_of_some u k2 ' ' hval)

/-- A line of the shape `# protein sequence = [...` matches no noise
pattern: each pattern would have to be a prefix, but every pattern differs
from the introducer at index 2. -/
lemma noise_intro (u : Line) (h1 : '#' ∉ u) : noise (seqIntro ++ u) = false := by
  rw [noise, List.any_eq_false]
  intro p hp hinf
  obtain ⟨hhead, hlen, hp2⟩ := noisePatterns_facts p hp
  cases p with
  | nil => cases hhead
  | cons c ptail =>
    have hc : c = '#' := by simpa using hhead
    subst hc
    rw [show seqIntro ++ u = '#' :: (" protein sequence = [".data ++ u) from rfl] at hinf
    have hnot : '#' ∉ (" protein sequence = [".data ++ u) := by
      intro hmem
      rcases List.mem_append.mp hmem with h3 | h3
      · exact absurd h3 (by decide)
      · exact h1 h3
    have hpre := occursWithin_hash_front ptail _ hnot hinf
    have hval : ('#' :: (" protein sequence = [".data ++ u))[2]? = some 'p' := rfl
    rw [isPrefixOf_getElem? _ _ hpre 2 hlen] at hval
    exact hp2 hval

/-! ### Evaluating `protStart` and `protEnd` on generated line shapes -/

lemma protStart_intro (c : Char) (v : Line) (hcs : pySpace c = false) :
    protStart (seqIntro ++ (c :: v)) = true := by
  rw [protStart, isPrefixOf_self_append]
  have hdrop : (seqIntro ++ (c :: v)).drop seqIntro.length = c :: v := List.drop_left _ _
  rw [hdrop]
  simp [hcs]

lemma seqIntro_not_prefix_cont (u : Line) (hh : ∀ d, u.head? = some d → ('p' == d) = false) :
    List.isPrefixOf seqIntro ('#' :: ' ' :: u) = false := by
  cases u with
  | nil => decide
  | cons d rest =>
    rw [show seqIntro = '#' :: ' ' :: 'p' :: "rotein sequence = [".data from rfl]
    simp [List.isPrefixOf, hh d rfl]

lemma protStart_cont (u : Line) (hh : ∀ d, u.head? = some d → ('p' == d) = false) :
    protStart ('#' :: ' ' :: u) = false := by
  rw [protStart, seqIntro_not_prefix_cont u hh]
  rfl

lemma protEnd_close (u : Line) : protEnd (u ++ [']']) = true := by
  rw [protEnd, List.getLast?_append]
  rfl

lemma protEnd_append_false (a s : Line) (hs : s ≠ []) (h : ∀ c ∈ s, ¬ c = ']') :
    protEnd (a ++ s) = false := by
  rw [protEnd, List.getLast?_append, List.getLast?_eq_getLast s hs]
  have h2 := h (s.getLast hs) (List.getLast_mem hs)
  simpa using h2

/-! ### Segment-character helpers -/

lemma upper_not_mem (d : Char) (hd : d.isUpper = false) (s : Line)
    (hs : ∀ c ∈ s, c.isUpper = true) : d ∉ s := by
  intro h2
  rw [hs d h2] at hd
  cases hd

lemma goodId_not_mem (d : Char) (hd : goodIdChar d = false) (t : Line)
    (ht : ∀ c ∈ t, goodIdChar c = true) : d ∉ t := by
  intro h2
  rw [ht d h2] at hd
  cases hd

lemma upper_head_ne_p (s u : Line) (hse : s ≠ []) (hs : ∀ c ∈ s, c.isUpper = true) :
    ∀ d, (s ++ u).head? = some d → ('p' == d) = false := by
  intro d hh
  cases s with
  | nil => exact absurd rfl hse
  | cons c v =>
    have hd : d = c := by simpa using hh.symm
    subst hd
    exact beq_eq_false_iff_ne.mpr
      fun h2 => absurd (hs d (List.mem_cons_self d v)) (h2 ▸ by decide)

/-! ### Evaluating `contSeq` and `endSeq` on generated line shapes -/

lemma contSeq_open (s : Line) (h1 : '#' ∉ s) : contSeq (seqIntro ++ s) = s := by
  rw [contSeq]
  have e1 : removeAll seqIntro (seqIntro ++ s) = s :=
    removeAll_self_append '#' (" protein sequence = [".data) s h1
  rw [e1]
  exact removeAll_no_head '#' [' '] s h1

lemma contSeq_cont (s : Line) (h1 : '#' ∉ s)
    (hpre : List.isPrefixOf seqIntro ('#' :: ' ' :: s) = false) :
    contSeq ('#' :: ' ' :: s) = s := by
  rw [contSeq]
  have h1b : '#' ∉ (' ' :: s) := by
    intro hmem
    rcases List.mem_cons.mp hmem with h3 | h3
    · cases h3
    · exact h1 h3
  have e1 : removeAll seqIntro ('#' :: ' ' :: s) = '#' :: ' ' :: s :=
    removeAll_cons_miss '#' (" protein sequence = [".data) '#' (' ' :: s) hpre h1b
  rw [e1]
  exact removeAll_self_append '#' [' '] s h1

lemma endSeq_closing (s : Line) (h1 : '#' ∉ s) (hrb : ']' ∉ s)
    (hpre : List.isPrefixOf seqIntro ('#' :: ' ' :: (s ++ [']'])) = false) :
    endSeq ('#' :: ' ' :: (s ++ [']'])) = s := by
  rw [endSeq]
  have h1b : '#' ∉ s ++ [']'] := by
    intro hmem
    rcases List.mem_append.mp hmem with h3 | h3
    · exact h1 h3
    · simp at h3
  have h1c : '#' ∉ (' ' :: (s ++ [']'])) := by
    intro hmem
    rcases List.mem_cons.mp hmem with h3 | h3
    · cases h3
    · exact h1b h3
  have e1 : removeAll seqIntro ('#' :: ' ' :: (s ++ [']'])) = '#' :: ' ' :: (s ++ [']']) :=
    removeAll_cons_miss '#' (" protein sequence = [".data) '#' (' ' :: (s ++ [']'])) hpre h1c
  rw [e1]
  have e2 : removeAll ("# ".data) ('#' :: ' ' :: (s ++ [']'])) = s ++ [']'] :=
    removeAll_self_append '#' [' '] (s ++ [']']) h1b
  rw [e2]
  exact removeAll_single_close s hrb

lemma endSeq_single (s : Line) (h1 : '#' ∉ s) (hrb : ']' ∉ s) :
    endSeq (seqIntro ++ (s ++ [']'])) = s := by
  rw [endSeq]
  have h1b : '#' ∉ s ++ [']'] := by
    intro hmem
    rcases List.mem_append.mp hmem with h3 | h3
    · exact h1 h3
    · simp at h3
  have e1 : removeAll seqIntro (seqIntro ++ (s ++ [']'])) = s ++ [']'] :=
    removeAll_self_append '#' (" protein sequence = [".data) (s ++ [']']) h1b
  rw [e1]
  have e2 : removeAll ("# ".data) (s ++ [']']) = s ++ [']'] :=
    removeAll_no_head '#' [' '] (s ++ [']']) h1b
  rw [e2]
  exact removeAll_single_close s hrb

/-! ### One-line transitions of the state machine -/

lemma head_ne_p_of_upper (c : Char) (hcu : c.isUpper = true) (v : Line) :
    ∀ d, (c :: v).head? = some d → ('p' == d) = false := by
  intro d hh
  have hd : d = c := by simpa using hh.symm
  subst hd
  exact beq_eq_false_iff_ne.mpr fun h2 => absurd hcu (h2 ▸ by decide)

/-- A line matched by the noise filter leaves the state untouched. -/
lemma stepLine_noise (st : PState) (line : Line) (hn : noise line = true) :
    stepLine st line = some st := by
  rw [stepLine, if_pos hn]

/-- A `transcript` feature line only replaces the current identifier. -/
lemma stepLine_tLine (st : PState) (t : Line) (hgt : goodId t) (htag : st.protTag = false) :
    stepLine st (tLine t) = some ⟨false, some t, st.dseq⟩ := by
  obtain ⟨ht, hch⟩ := hgt
  have hhash : '#' ∉ tLine t := by
    rw [tLine]
    intro hmem
    rcases List.mem_append.mp hmem with h3 | h3
    · exact absurd h3 (by decide)
    · exact goodId_not_mem '#' (by decide) t hch h3
  have hn : noise (tLine t) = false := noise_no_hash _ hhash
  have hcap : transcriptCapture (tLine t) = some t := transcriptCapture_tLine t ht hch
  have hend : protEnd (tLine t) = false :=
    protEnd_append_false ("s\ttranscript\t1\tID=".data) t ht
      (fun c hc => goodIdChar_ne c ']' (by decide) (hch c hc))
  rw [stepLine, hn]
  simp only [Bool.false_eq_true, if_false, hcap, hend, htag]

/-- The opening line of a multi-line block: sets `prot_tag` and appends the
first segment through the continuation branch of the same iteration. -/
lemma stepLine_open (st : PState) (t s : Line) (hs : goodSeg s) (htid : st.tid = some t) :
    stepLine st (seqIntro ++ s) = some ⟨true, some t, dAppend st.dseq t s⟩ := by
  obtain ⟨hse, hsu⟩ := hs
  have hhash : '#' ∉ s := upper_not_mem '#' (by decide) s hsu
  have hn : noise (seqIntro ++ s) = false := noise_intro s hhash
  have hcap : transcriptCapture (seqIntro ++ s) = none := by
    refine transcriptCapture_no_tab _ (fun hmem => ?_)
    rcases List.mem_append.mp hmem with h3 | h3
    · exact absurd h3 (by decide)
    · exact absurd h3 (upper_not_mem '\t' (by decide) s hsu)
  obtain ⟨c, v, rfl⟩ : ∃ c v, s = c :: v := by
    cases s with
    | nil => exact absurd rfl hse
    | cons c v => exact ⟨c, v, rfl⟩
  have hps : protStart (seqIntro ++ (c :: v)) = true :=
    protStart_intro c v (isUpper_not_pySpace c (hsu c (List.mem_cons_self c v)))
  have hend : protEnd (seqIntro ++ (c :: v)) = false :=
    protEnd_append_false seqIntro (c :: v) (List.cons_ne_nil c v)
      (fun d hd => isUpper_ne d ']' (by decide) (hsu d hd))
  have hcont : contSeq (seqIntro ++ (c :: v)) = c :: v := contSeq_open (c :: v) hhash
  rw [stepLine, hn]
  simp only [Bool.false_eq_true, if_false, hcap, hps, hend, htid, hcont, if_true]

/-- A middle continuation line of a multi-line block: appends its segment. -/
lemma stepLine_cont (st : PState) (t s : Line) (hs : goodSeg s) (htid : st.tid = some t)
    (htag : st.protTag = true) :
    stepLine st ("# ".data ++ s) = some ⟨true, some t, dAppend st.dseq t s⟩ := by
  obtain ⟨hse, hsu⟩ := hs
  have hhash : '#' ∉ s := upper_not_mem '#' (by decide) s hsu
  have hline : "# ".data ++ s = '#' :: ' ' :: s := rfl
  rw [hline]
  have hn : noise ('#' :: ' ' :: s) = false :=
    noise_hash_space s hhash (upper_not_mem ' ' (by decide) s hsu)
  have hcap : transcriptCapture ('#' :: ' ' :: s) = none := by
    refine transcriptCapture_no_tab _ (fun hmem => ?_)
    rcases List.mem_cons.mp hmem with h3 | h3
    · cases h3
    rcases List.mem_cons.mp h3 with h4 | h4
    · cases h4
    · exact absurd h4 (upper_not_mem '\t' (by decide) s hsu)
  obtain ⟨c, v, rfl⟩ : ∃ c v, s = c :: v := by
    cases s with
    | nil => exact absurd rfl hse
    | cons c v => exact ⟨c, v, rfl⟩
  have hcu : c.isUpper = true := hsu c (List.mem_cons_self c v)
  have hps : protStart ('#' :: ' ' :: (c :: v)) = false :=
    protStart_cont (c :: v) (head_ne_p_of_upper c hcu v)
  have hend : protEnd ('#' :: ' ' :: (c :: v)) = false :=
    protEnd_append_false ['#', ' '] (c :: v) (List.cons_ne_nil c v)
      (fun d hd => isUpper_ne d ']' (by decide) (hsu d hd))
  have hcont : contSeq ('#' :: ' ' :: (c :: v)) = c :: v :=
    contSeq_cont (c :: v) hhash (seqIntro_not_prefix_cont (c :: v) (head_ne_p_of_upper c hcu v))
  rw [stepLine, hn]
  simp only [Bool.false_eq_true, if_false, hcap, hps, hend, htid, htag, hcont, if_true]

/-- The closing continuation line of a multi-line block: appends its segment
and clears `prot_tag` (whatever its value was). -/
lemma stepLine_close (st : PState) (t s : Line) (hs : goodSeg s) (htid : st.tid = some t) :
    stepLine st ("# ".data ++ (s ++ [']'])) = some ⟨false, some t, dAppend st.dseq t s⟩ := by
  obtain ⟨hse, hsu⟩ := hs
  have hhash : '#' ∉ s := upper_not_mem '#' (by decide) s hsu
  have hrb : ']' ∉ s := upper_not_mem ']' (by decide) s hsu
  have hline : "# ".data ++ (s ++ [']']) = '#' :: ' ' :: (s ++ [']']) := rfl
  rw [hline]
  have hmem2 : ∀ d : Char, d ∉ s → ¬ d = ']' → d ∉ s ++ [']'] := by
    intro d hd hd2 hmem
    rcases List.mem_append.mp hmem with h3 | h3
    · exact hd h3
    · simp at h3
      exact hd2 h3
  have hn : noise ('#' :: ' ' :: (s ++ [']'])) = false :=
    noise_hash_space (s ++ [']'])
      (hmem2 '#' hhash (by decide))
      (hmem2 ' ' (upper_not_mem ' ' (by decide) s hsu) (by decide))
  have hcap : transcriptCapture ('#' :: ' ' :: (s ++ [']'])) = none := by
    refine transcriptCapture_no_tab _ (fun hmem => ?_)
    rcases List.mem_cons.mp hmem with h3 | h3
    · cases h3
    rcases List.mem_cons.mp h3 with h4 | h4
    · cases h4
    · exact hmem2 '\t' (upper_not_mem '\t' (by decide) s hsu) (by decide) h4
  obtain ⟨c, v, rfl⟩ : ∃ c v, s = c :: v := by
    cases s with
    | nil => exact absurd rfl hse
    | cons c v => exact ⟨c, v, rfl⟩
  have hcu : c.isUpper = true := hsu c (List.mem_cons_self c v)
  have hhp : ∀ d, ((c :: v) ++ [']']).head? = some d → ('p' == d) = false := by
    rw [List.cons_append]
    exact head_ne_p_of_upper c hcu (v ++ [']'])
  have hps : protStart ('#' :: ' ' :: ((c :: v) ++ [']'])) = false :=
    protStart_cont ((c :: v) ++ [']']) hhp
  have hend : protEnd ('#' :: ' ' :: ((c :: v) ++ [']'])) = true := by
    rw [show '#' :: ' ' :: ((c :: v) ++ [']']) = ('#' :: ' ' :: (c :: v)) ++ [']'] by simp]
    exact protEnd_close ('#' :: ' ' :: (c :: v))
  have hendseq : endSeq ('#' :: ' ' :: ((c :: v) ++ [']'])) = c :: v :=
    endSeq_closing (c :: v) hhash hrb (seqIntro_not_prefix_cont ((c :: v) ++ [']']) hhp)
  rw [stepLine, hn]
  simp only [Bool.false_eq_true, if_false, hcap, hps, hend, htid, hendseq, if_true]

/-- A fully bracketed single-line block: `prot_start` and `prot_end` both
fire, yet the segment is appended exactly once. -/
lemma stepLine_single (st : PState) (t s : Line) (hs : goodSeg s) (htid : st.tid = some t) :
    stepLine st (seqIntro ++ (s ++ [']'])) = some ⟨false, some t, dAppend st.dseq t s⟩ := by
  obtain ⟨hse, hsu⟩ := hs
  have hhash : '#' ∉ s := upper_not_mem '#' (by decide) s hsu
  have hrb : ']' ∉ s := upper_not_mem ']' (by decide) s hsu
  have hhashb : '#' ∉ s ++ [']'] := by
    intro hmem
    rcases List.mem_append.mp hmem with h3 | h3
    · exact hhash h3
    · simp at h3
  have hn : noise (seqIntro ++ (s ++ [']'])) = false := noise_intro (s ++ [']']) hhashb
  have hcap : transcriptCapture (seqIntro ++ (s ++ [']'])) = none := by
    refine transcriptCapture_no_tab _ (fun hmem => ?_)
    rcases List.mem_append.mp hmem with h3 | h3
    · exact absurd h3 (by decide)
    rcases List.mem_append.mp h3 with h4 | h4
    · exact absurd h4 (upper_not_mem '\t' (by decide) s hsu)
    · simp at h4
  have hendseq : endSeq (seqIntro ++ (s ++ [']'])) = s := endSeq_single s hhash hrb
  have hend : protEnd (seqIntro ++ (s ++ [']'])) = true := by
    rw [show seqIntro ++ (s ++ [']']) = (seqIntro ++ s) ++ [']'] by simp]
    exact protEnd_close (seqIntro ++ s)
  obtain ⟨c, v, rfl⟩ : ∃ c v, s = c :: v := by
    cases s with
    | nil => exact absurd rfl hse
    | cons c v => exact ⟨c, v, rfl⟩
  have hps : protStart (seqIntro ++ ((c :: v) ++ [']'])) = true := by
    rw [List.cons_append]
    exact protStart_intro c (v ++ [']'])
      (isUpper_not_pySpace c (hsu c (List.mem_cons_self c v)))
  rw [stepLine, hn]
  simp only [Bool.false_eq_true, if_false, hcap, hps, hend, htid, hendseq, if_true]

/-! ### `defaultdict` accumulation -/

lemma dAppend_fresh (d : List (Line × Line)) (k v : Line) (h : ∀ p ∈ d, ¬ p.1 = k) :
    dAppend d k v = d ++ [(k, v)] := by
  induction d with
  | nil => rfl
  | cons q rest ih =>
    obtain ⟨k1, v1⟩ := q
    rw [dAppend, if_neg (h (k1, v1) (List.mem_cons_self _ _)),
      ih (fun p hp => h p (List.mem_cons_of_mem _ hp))]
    rfl

lemma dAppend_last (d : List (Line × Line)) (k a v : Line) (h : ∀ p ∈ d, ¬ p.1 = k) :
    dAppend (d ++ [(k, a)]) k v = d ++ [(k, a ++ v)] := by
  induction d with
  | nil => simp [dAppend]
  | cons q rest ih =>
    obtain ⟨k1, v1⟩ := q
    rw [List.cons_append, dAppend, if_neg (h (k1, v1) (List.mem_cons_self _ _)),
      ih (fun p hp => h p (List.mem_cons_of_mem _ hp))]
    rfl

/-! ### Folding the state machine over a whole block -/

lemma some_bind_eq {a : PState} {f : PState → Option PState} : (some a >>= f) = f a := rfl

lemma foldlM_contLines (segs : List Line) (hne : segs ≠ []) (hgs : ∀ s ∈ segs, goodSeg s)
    (t acc : Line) (d : List (Line × Line)) (hd : ∀ p ∈ d, ¬ p.1 = t) :
    List.foldlM stepLine (PState.mk true (some t) (d ++ [(t, acc)])) (contLines segs) =
      some ⟨false, some t, d ++ [(t, acc ++ segs.flatten)]⟩ := by
  induction segs generalizing acc with
  | nil => exact absurd rfl hne
  | cons s rest ih =>
    cases rest with
    | nil =>
      rw [show contLines [s] = ["# ".data ++ (s ++ [']'])] from rfl, List.foldlM_cons,
        stepLine_close _ t s (hgs s (List.mem_cons_self _ _)) rfl,
        dAppend_last d t acc s hd]
      simp
    | cons s2 rest2 =>
      rw [show contLines (s :: s2 :: rest2) = ("# ".data ++ s) :: contLines (s2 :: rest2)
          from rfl,
        List.foldlM_cons,
        stepLine_cont _ t s (hgs s (List.mem_cons_self _ _)) rfl rfl,
        dAppend_last d t acc s hd]
      have ih2 := ih (List.cons_ne_nil s2 rest2)
        (fun x hx => hgs x (List.mem_cons_of_mem s hx)) (acc ++ s)
      rw [some_bind_eq, ih2]
      simp

lemma foldlM_seqLines (segs : List Line) (hne : segs ≠ []) (hgs : ∀ s ∈ segs, goodSeg s)
    (t : Line) (d : List (Line × Line)) (hd : ∀ p ∈ d, ¬ p.1 = t) :
    List.foldlM stepLine (PState.mk false (some t) d) (seqLines segs) =
      some ⟨false, some t, d ++ [(t, segs.flatten)]⟩ := by
  cases segs with
  | nil => exact absurd rfl hne
  | cons s rest =>
    cases rest with
    | nil =>
      rw [show seqLines [s] = [seqIntro ++ (s ++ [']'])] from rfl, List.foldlM_cons,
        stepLine_single _ t s (hgs s (List.mem_cons_self _ _)) rfl,
        dAppend_fresh d t s hd]
      simp
    | cons s2 rest2 =>
      rw [show seqLines (s :: s2 :: rest2) = (seqIntro ++ s) :: contLines (s2 :: rest2)
          from rfl,
        List.foldlM_cons,
        stepLine_open _ t s (hgs s (List.mem_cons_self _ _)) rfl,
        dAppend_fresh d t s hd]
      have ih2 := foldlM_contLines (s2 :: rest2) (List.cons_ne_nil s2 rest2)
        (fun x hx => hgs x (List.mem_cons_of_mem s hx)) t s d hd
      rw [some_bind_eq, ih2]
      simp

lemma foldlM_blocks (blocks : List TBlock) (st : PState) (htag : st.protTag = false)
    (hg : ∀ b ∈ blocks, goodBlock b)
    (hnd : (blocks.map TBlock.tid).Nodup)
    (hfresh : ∀ b ∈ blocks, ∀ p ∈ st.dseq, ¬ p.1 = b.tid) :
    ∃ tid2, List.foldlM stepLine st (blocks.flatMap blockLines) =
      some ⟨false, tid2, st.dseq ++ blocks.map (fun b => (b.tid, b.segs.flatten))⟩ := by
  induction blocks generalizing st with
  | nil =>
    refine ⟨st.tid, ?_⟩
    obtain ⟨tag, tid, dseq⟩ := st
    simp at htag
    subst htag
    simp
  | cons b rest ih =>
    obtain ⟨hgb, hbs, hbsegs⟩ := hg b (List.mem_cons_self b rest)
    rw [List.flatMap_cons, show blockLines b = tLine b.tid :: seqLines b.segs from rfl]
    rw [List.cons_append, List.foldlM_cons, stepLine_tLine st b.tid hgb htag, some_bind_eq]
    rw [List.foldlM_append, foldlM_seqLines b.segs hbs hbsegs b.tid st.dseq
      (hfresh b (List.mem_cons_self b rest)), some_bind_eq]
    have hnd2 : (rest.map TBlock.tid).Nodup := (List.nodup_cons.mp hnd).2
    have hbtid : b.tid ∉ rest.map TBlock.tid := (List.nodup_cons.mp hnd).1
    have hfresh2 : ∀ b2 ∈ rest, ∀ p ∈ st.dseq ++ [(b.tid, b.segs.flatten)], ¬ p.1 = b2.tid := by
      intro b2 hb2 p hp
      rcases List.mem_append.mp hp with h3 | h3
      · exact hfresh b2 (List.mem_cons_of_mem b hb2) p h3
      · have hpe : p = (b.tid, b.segs.flatten) := by simpa using h3
        subst hpe
        intro h4
        have h5 : b.tid = b2.tid := h4
        exact hbtid (h5 ▸ List.mem_map_of_mem TBlock.tid hb2)
    obtain ⟨tid2, hrest⟩ := ih ⟨false, some b.tid, st.dseq ++ [(b.tid, b.segs.flatten)]⟩ rfl
      (fun b2 hb2 => hg b2 (List.mem_cons_of_mem b hb2)) hnd2 hfresh2
    refine ⟨tid2, ?_⟩
    rw [hrest]
    simp

/-! ### Parser-state lemmas for inputs without a transcript line -/

lemma stepLine_tid_of_no_capture (st : PState) (line : Line)
    (hc : transcriptCapture line = none) :
    stepLine st line = none ∨ ∃ st2, stepLine st line = some st2 ∧ st2.tid = st.tid := by
  rw [stepLine]
  by_cases hn : noise line = true
  · rw [if_pos hn]
    exact Or.inr ⟨st, rfl, rfl⟩
  · rw [if_neg hn, hc]
    by_cases hps : protStart line = true
    · by_cases hpe : protEnd line = true
      · simp only [hps, hpe, if_true]
        cases htid : st.tid with
        | none => exact Or.inl rfl
        | some t => exact Or.inr ⟨_, rfl, rfl⟩
      · simp only [hps, hpe, if_true, if_false, Bool.false_eq_true]
        cases htid : st.tid with
        | none => exact Or.inl rfl
        | some t => exact Or.inr ⟨_, rfl, rfl⟩
    · have hps2 : protStart line = false := by simpa using hps
      by_cases hpe : protEnd line = true
      · simp only [hps2, hpe, if_true, if_false, Bool.false_eq_true]
        cases htid : st.tid with
        | none => exact Or.inl rfl
        | some t => exact Or.inr ⟨_, rfl, rfl⟩
      · simp only [hps2, hpe, if_false, Bool.false_eq_true]
        by_cases htag : st.protTag = true
        · simp only [htag, if_true]
          cases htid : st.tid with
          | none => exact Or.inl rfl
          | some t => exact Or.inr ⟨_, rfl, rfl⟩
        · have htag2 : st.protTag = false := by simpa using htag
          simp only [htag2, if_false, Bool.false_eq_true]
          exact Or.inr ⟨st, rfl, rfl⟩

lemma stepLine_end_no_tid (st : PState) (line : Line) (hn : noise line = false)
    (hc : transcriptCapture line = none) (hpe : protEnd line = true)
    (htid : st.tid = none) : stepLine st line = none := by
  rw [stepLine, hn]
  by_cases hps : protStart line = true
  · simp only [Bool.false_eq_true, if_false, hc, hps, hpe, if_true, htid]
  · have hps2 : protStart line = false := by simpa using hps
    simp only [Bool.false_eq_true, if_false, hc, hps2, hpe, if_true, htid]

lemma stepLine_start_no_tid (st : PState) (line : Line) (hn : noise line = false)
    (hc : transcriptCapture line = none) (hps : protStart line = true)
    (hpe : protEnd line = false) (htid : st.tid = none) : stepLine st line = none := by
  rw [stepLine, hn]
  simp only [Bool.false_eq_true, if_false, hc, hps, hpe, if_true, htid]

lemma foldlM_tid_none (lines : List Line) (hcap : ∀ x ∈ lines, transcriptCapture x = none)
    (st : PState) (htid : st.tid = none) :
    List.foldlM stepLine st lines = none ∨
      ∃ st2, List.foldlM stepLine st lines = some st2 ∧ st2.tid = none := by
  induction lines generalizing st with
  | nil => exact Or.inr ⟨st, rfl, htid⟩
  | cons l rest ih =>
    rw [List.foldlM_cons]
    rcases stepLine_tid_of_no_capture st l (hcap l (List.mem_cons_self l rest)) with
      h | ⟨st2, h2, h3⟩
    · rw [h]
      exact Or.inl rfl
    · rw [h2, some_bind_eq]
      exact ih (fun x hx => hcap x (List.mem_cons_of_mem l hx)) st2 (h3.trans htid)

/-! ### Claim theorems for the extractor -/

/-- C1: for every well-formed annotation input (a sequence of transcript
records with distinct identifiers, each a `transcript` feature line followed
by a protein-sequence block), every captured transcript identifier produces
exactly one entry of the output mapping, and that entry is the concatenation
of the block segments in input-line order. -/
theorem extractor_blocks_exact (blocks : List TBlock)
    (hg : ∀ b ∈ blocks, goodBlock b) (hnd : (blocks.map TBlock.tid).Nodup) :
    parse_augustus (blocks.flatMap blockLines) =
      some (blocks.map (fun b => (b.tid, b.segs.flatten))) := by
  obtain ⟨tid2, hfold⟩ := foldlM_blocks blocks ⟨false, none, []⟩ rfl hg hnd (by simp)
  rw [parse_augustus, hfold]
  simp

/-- C1 witness: the three-line block of the spec (`# protein sequence = [MSEK`,
`# QRST`, `# UVWY]`) yields exactly `MSEKQRSTUVWY`. -/
theorem extractor_blocks_exact_witness :
    parse_augustus (List.flatMap
        [TBlock.mk "foo.g1.t1".data ["MSEK".data, "QRST".data, "UVWY".data]] blockLines) =
      some [("foo.g1.t1".data, "MSEKQRSTUVWY".data)] :=
  Eq.trans
    (extractor_blocks_exact
      [TBlock.mk "foo.g1.t1".data ["MSEK".data, "QRST".data, "UVWY".data]]
      (by decide) (by decide))
    (by decide)

/-- C2: a block fully bracketed on a single line appends its sequence
exactly once, although the sequence-start and sequence-end regexes both
match that line. -/
theorem single_line_block_once (t s : Line) (hgt : goodId t) (hs : goodSeg s) :
    parse_augustus [tLine t, seqIntro ++ (s ++ [']'])] = some [(t, s)] := by
  rw [parse_augustus, List.foldlM_cons, stepLine_tLine ⟨false, none, []⟩ t hgt rfl,
    some_bind_eq, List.foldlM_cons, stepLine_single ⟨false, some t, []⟩ t s hs rfl,
    some_bind_eq]
  rfl

/-- C2 witness: `# protein sequence = [MSE]` after a transcript line yields
exactly `MSE`. -/
theorem single_line_block_once_witness :
    parse_augustus ["s\ttranscript\t1\tID=foo.g1.t1".data,
        "# protein sequence = [MSE]".data] =
      some [("foo.g1.t1".data, "MSE".data)] :=
  single_line_block_once "foo.g1.t1".data "MSE".data (by decide) (by decide)

/-- C5: each of the known noise comment patterns alone yields an empty
output mapping, and a line matched by the noise filter leaves the parser
state (identifier, continuation flag, accumulated sequences) unchanged. -/
theorem noise_patterns_inert :
    (∀ p ∈ noisePatterns, parse_augustus [p] = some []) ∧
    (∀ (st : PState) (line : Line), noise line = true → stepLine st line = some st) := by
  constructor
  · decide
  · exact fun st line h => stepLine_noise st line h

/-- C5 witness at the pattern `# CDS exons` and an arbitrary mid-parse
state. -/
theorem noise_patterns_inert_witness :
    parse_augustus ["# CDS exons".data] = some [] ∧
    stepLine ⟨true, some "g1.t1".data, [("g1.t1".data, "MSE".data)]⟩ "# CDS exons".data =
      some ⟨true, some "g1.t1".data, [("g1.t1".data, "MSE".data)]⟩ :=
  ⟨noise_patterns_inert.1 "# CDS exons".data (by decide),
   noise_patterns_inert.2 _ "# CDS exons".data (by decide)⟩

/-- C7 counterexample: on the very first sequence block of a file, with no
transcript identifier ever assigned, the extractor does not accumulate under
any identifier - it fails (`NameError` on the unassigned `transcript_id`),
modelled as `none`. -/
theorem early_seq_line_rejects_counterexample :
    parse_augustus ["# protein sequence = [MSE]".data] = none := by decide

/-- C7 (amended): a sequence-start or sequence-end line encountered before
any transcript feature line has been seen makes the extractor fail with an
undefined-identifier error (`none`), rather than accumulating anywhere. -/
theorem early_seq_line_rejects (pre : List Line) (line : Line) (post : List Line)
    (hpre : ∀ x ∈ pre, transcriptCapture x = none)
    (hn : noise line = false) (hc : transcriptCapture line = none)
    (hse : protEnd line = true ∨ (protStart line = true ∧ protEnd line = false)) :
    parse_augustus (pre ++ line :: post) = none := by
  rw [parse_augustus, List.foldlM_append]
  rcases foldlM_tid_none pre hpre ⟨false, none, []⟩ rfl with h | ⟨st2, h2, h3⟩
  · rw [h]
    rfl
  · rw [h2, some_bind_eq, List.foldlM_cons]
    rcases hse with h4 | ⟨h4, h5⟩
    · rw [stepLine_end_no_tid st2 line hn hc h4 h3]
      rfl
    · rw [stepLine_start_no_tid st2 line hn hc h4 h5 h3]
      rfl

/-- C7 witness: a noise line, then an unclosed sequence-start line, before
any transcript line: the extractor fails. -/
theorem early_seq_line_rejects_witness :
    parse_augustus (["# CDS exons".data] ++ "# protein sequence = [MSEK".data :: []) =
      none :=
  early_seq_line_rejects ["# CDS exons".data] "# protein sequence = [MSEK".data []
    (by decide) (by decide) (by decide) (Or.inr ⟨by decide, by decide⟩)

/-- C10: any line surviving the noise filter whose last character is `]` -
here one that is not a sequence comment at all, with the continuation flag
false and no sequence-start match - still appends its stripped text to the
current identifier and clears the flag: the sequence-end check looks only at
the last character of the line, never at the parser state. -/
theorem prot_end_unconditional (st : PState) (t line : Line)
    (hn : noise line = false) (hcap : transcriptCapture line = none)
    (hps : protStart line = false) (_htag : st.protTag = false)
    (htid : st.tid = some t) (hpe : protEnd line = true) :
    stepLine st line = some ⟨false, some t, dAppend st.dseq t (endSeq line)⟩ := by
  rw [stepLine, hn]
  simp only [Bool.false_eq_true, if_false, hcap, hps, hpe, htid, if_true]

/-- C10 witness: the line `abc]` - no comment, no sequence marker - gets
appended to the current transcript entry. -/
theorem prot_end_unconditional_witness :
    stepLine ⟨false, some "foo.g1.t1".data, []⟩ "abc]".data =
      some ⟨false, some "foo.g1.t1".data, [("foo.g1.t1".data, "abc".data)]⟩ := by
  have h := prot_end_unconditional ⟨false, some "foo.g1.t1".data, []⟩ "foo.g1.t1".data
    "abc]".data (by decide) (by decide) (by decide) rfl rfl (by decide)
  rw [h]
  decide

/-! ### Claim theorems for the FASTA writer -/

lemma wrapBodyAux_flatten (fuel : Nat) : ∀ s : Line, (wrapBodyAux fuel s).flatten = s := by
  induction fuel with
  | zero =>
    intro s
    cases s with
    | nil => rfl
    | cons c rest => simp [wrapBodyAux]
  | succ fuel ih =>
    intro s
    cases s with
    | nil => rfl
    | cons c rest =>
      have h1 : wrapBodyAux (fuel + 1) (c :: rest) =
          (c :: rest).take 60 :: wrapBodyAux fuel (rest.drop 59) := by
        simp [wrapBodyAux]
      rw [h1, List.flatten_cons, ih (rest.drop 59),
        show rest.drop 59 = (c :: rest).drop 60 from rfl, List.take_append_drop]

/-- C4: the wrap-at-60 writer round-trips: concatenating the body lines of
an entry reproduces the stored sequence exactly; the 80-residue sequence
`ACDEFGHIKLMNPQRSTVWY` times 4 is emitted as a 60-character line followed by
a 20-character line, and an empty sequence emits no body lines. -/
theorem wrap_writer_round_trip :
    (∀ s : Line, (wrapBody s).flatten = s) ∧
    wrapBody ("ACDEFGHIKLMNPQRSTVWYACDEFGHIKLMNPQRSTVWYACDEFGHIKLMNPQRSTVWYACDEFGHIKLMNPQRSTVWY".data) =
      ["ACDEFGHIKLMNPQRSTVWYACDEFGHIKLMNPQRSTVWYACDEFGHIKLMNPQRSTVWY".data,
       "ACDEFGHIKLMNPQRSTVWY".data] ∧
    wrapBody ([] : Line) = [] :=
  ⟨fun s => wrapBodyAux_flatten s.length s, by decide, rfl⟩

/-- C3: sorting is numeric on the captured gene index: a mapping holding
`foo.g2.t1`, `foo.g10.t1`, `foo.g1.t1` (any stored sequences) is emitted in
the order g1, g2, g10 - not the lexicographic order g1, g10, g2. -/
theorem sort_numeric_order (s2 s10 s1 : Line) :
    d_seq_sorted [("foo.g2.t1".data, s2), ("foo.g10.t1".data, s10), ("foo.g1.t1".data, s1)] =
      some [("foo.g1.t1".data, s1), ("foo.g2.t1".data, s2), ("foo.g10.t1".data, s10)] := by
  have h2 : sortKey "foo.g2.t1".data = some 2 := by decide
  have h3 : sortKey "foo.g10.t1".data = some 10 := by decide
  have h4 : sortKey "foo.g1.t1".data = some 1 := by decide
  have h1 : decorate [("foo.g2.t1".data, s2), ("foo.g10.t1".data, s10), ("foo.g1.t1".data, s1)] =
      some [(2, ("foo.g2.t1".data, s2)), (10, ("foo.g10.t1".data, s10)),
        (1, ("foo.g1.t1".data, s1))] := by
    rw [decorate, decorate, decorate, decorate, h2, h3, h4]
  rw [d_seq_sorted, h1]
  simp [List.mergeSort]

lemma decorate_none_of_bad (d : List (Line × Line)) (p : Line × Line) (hp : p ∈ d)
    (hbad : sortKey p.1 = none) : decorate d = none := by
  induction d with
  | nil => cases hp
  | cons q rest ih =>
    rcases List.mem_cons.mp hp with h1 | h1
    · subst h1
      cases hdr : decorate rest with
      | none => rw [decorate, hbad, hdr]
      | some kr => rw [decorate, hbad, hdr]
    · cases hk : sortKey q.1 with
      | none => rw [decorate, hk, ih h1]
      | some k => rw [decorate, hk, ih h1]

/-- C6: the writer raises instead of skipping whenever some identifier in
the mapping does not end with `g(digits).t(digits)`: no output is produced
for any entry. -/
theorem writer_fails_on_bad_id (d : List (Line × Line)) (p : Line × Line) (hp : p ∈ d)
    (hbad : sortKey p.1 = none) : fasta_lines d = none := by
  rw [fasta_lines, d_seq_sorted, decorate_none_of_bad d p hp hbad]
  rfl

/-- C6 witness: a mapping with the identifier `foo` produces no output at
all. -/
theorem writer_fails_on_bad_id_witness :
    fasta_lines [("foo".data, "MSE".data)] = none :=
  writer_fails_on_bad_id [("foo".data, "MSE".data)] ("foo".data, "MSE".data)
    (List.mem_cons_self _ _) (by decide)

/-! ### Claim theorems for the Annotation Line Source -/

lemma head?_dropWhile_false (p : Char → Bool) (l : Line) (c : Char)
    (h : (l.dropWhile p).head? = some c) : p c = false := by
  induction l with
  | nil => cases h
  | cons d rest ih =>
    rw [List.dropWhile_cons] at h
    by_cases hd : p d = true
    · rw [if_pos hd] at h
      exact ih h
    · rw [if_neg hd] at h
      have hc : c = d := by simpa using h.symm
      subst hc
      simpa using hd

/-- C8 counterexample: a trailing space that is part of the line content is
not preserved - `import_file` applies Python `rstrip()`, which strips all
trailing whitespace, not only line terminators. -/
theorem line_source_strips_spaces_counterexample :
    import_file ["abc ".data] = ["abc".data] ∧ ¬ ("abc ".data : Line) = "abc".data := by
  decide

/-- C8 (amended): the line source returns the lines in order with all
trailing whitespace (line terminators, spaces, tabs) stripped; each returned
line is exactly the original up to its trailing-whitespace suffix, and ends
in a non-whitespace character. -/
theorem line_source_rstrip (lines : List Line) :
    import_file lines = lines.map pyRstrip ∧
    (∀ s : Line, ∃ w : Line, s = pyRstrip s ++ w ∧ ∀ c ∈ w, pySpace c = true) ∧
    (∀ (s : Line) (c : Char), (pyRstrip s).getLast? = some c → pySpace c = false) := by
  refine ⟨rfl, ?_, ?_⟩
  · intro s
    refine ⟨(s.reverse.takeWhile pySpace).reverse, ?_, ?_⟩
    · rw [pyRstrip, ← List.reverse_append, List.takeWhile_append_dropWhile,
        List.reverse_reverse]
    · intro c hc
      exact List.mem_takeWhile_imp (List.mem_reverse.mp hc)
  · intro s c h
    rw [pyRstrip, List.getLast?_reverse] at h
    exact head?_dropWhile_false pySpace s.reverse c h

/-- C8 amended-claim witness: the line source at a concrete line with a
trailing space, and the last kept character discharged concretely. -/
theorem line_source_rstrip_witness :
    import_file ["ab ".data] = [pyRstrip "ab ".data] ∧ pySpace 'b' = false :=
  ⟨(line_source_rstrip ["ab ".data]).1,
   (line_source_rstrip []).2.2 "ab ".data 'b' (by decide)⟩

/-! ### The tool invokers (run_augustus.py lines 95-119,
run_blastp.py lines 76-111) -/

/-- An observable event of a tool-invoker run: a timed debug message, a
`[Run] ...` debug line, a `[Note] ...` skip line, or the execution of an
external command via `os.system`. -/
inductive LogEvent where
  | timeDebug (msg : String)
  | runLine (command : String)
  | noteLine (msg : String)
  | execute (command : String)
deriving DecidableEq

/-- The AUGUSTUS command line built by `run_augustus`. -/
def augustus_command (augustus_path masked_assembly species augustus_output : String) :
    String :=
  augustus_path ++ " --uniqueGeneId=true --singlestrand=true --gff3=on " ++ masked_assembly ++
    " --species=" ++ species ++ " --stopCodonExcludedFromCDS=false --softmasking=1 > " ++
    augustus_output

/-- Model of `run_augustus` (run_augustus.py lines 95-119): log START; if the output
artifact does not exist, log the command and execute it, otherwise log the
skip note; log DONE. `outputExists` models `glob(augustus_output)`. -/
def run_augustus (augustus_path masked_assembly species augustus_output : String)
    (outputExists : Bool) : List LogEvent :=
  [LogEvent.timeDebug "START: Augustus"] ++
    (if !outputExists then
      [LogEvent.runLine (augustus_command augustus_path masked_assembly species augustus_output),
       LogEvent.execute (augustus_command augustus_path masked_assembly species augustus_output)]
    else [LogEvent.noteLine "Running Augustus has already been finished"]) ++
    [LogEvent.timeDebug "DONE : Augustus"]

/-- The makeblastdb command line built by `run_blastp`. -/
def makeblastdb_command (makeblastdb_bin db_fasta log_file1 : String) : String :=
  makeblastdb_bin ++ " -in " ++ db_fasta ++ " -dbtype prot > " ++ log_file1 ++ " 2>&1"

/-- The index-build step of `run_blastp` (run_blastp.py lines 79-92):
re-run iff no index artifact matches `{db_fasta}.*phr`; otherwise log a skip
note. -/
def makeblastdb_step (makeblastdb_bin db_fasta log_file1 : String) (indexExists : Bool) :
    List LogEvent :=
  if !indexExists then
    [LogEvent.runLine (makeblastdb_command makeblastdb_bin db_fasta log_file1),
     LogEvent.execute (makeblastdb_command makeblastdb_bin db_fasta log_file1)]
  else [LogEvent.noteLine "Running makeblastdb has been already finished"]

/-- Constant `EVALUE_CUTOFF` (run_blastp.py line 18). -/
def EVALUE_CUTOFF : String := "1e-5"

/-- The blastp command line built by `run_blastp`. -/
def blastp_command (blastp_bin query_fasta db_fasta blastp_output : String) (num_cores : Nat)
    (log_file2 : String) : String :=
  blastp_bin ++ " -outfmt \"6 qseqid sseqid length qlen slen bitscore\" -query " ++
    query_fasta ++ " -db " ++ db_fasta ++ " -out " ++ blastp_output ++ " -num_threads " ++
    toString num_cores ++ " -evalue " ++ EVALUE_CUTOFF ++ " > " ++ log_file2 ++ " 2>&1"

/-- The search step of `run_blastp` (run_blastp.py lines 94-111). The output
artifact is `none` when absent and `some n` for a present artifact of `n`
bytes; `not glob(blastp_output) or os.stat(blastp_output)[6] == 0` re-runs
when the artifact is absent or zero-byte. The `if` has no `else`: nothing is
logged when the step is skipped. -/
def blastp_step (blastp_bin query_fasta db_fasta blastp_output : String) (num_cores : Nat)
    (log_file2 : String) (artifact : Option Nat) : List LogEvent :=
  if artifact = none ∨ artifact = some 0 then
    [LogEvent.runLine (blastp_command blastp_bin query_fasta db_fasta blastp_output
        num_cores log_file2),
     LogEvent.execute (blastp_command blastp_bin query_fasta db_fasta blastp_output
        num_cores log_file2)]
  else []

/-- Model of `run_blastp` (run_blastp.py lines 76-111): the index-build step followed
by the search step. -/
def run_blastp (makeblastdb_bin blastp_bin query_fasta db_fasta blastp_output
    log_file1 log_file2 : String) (num_cores : Nat) (indexExists : Bool)
    (artifact : Option Nat) : List LogEvent :=
  makeblastdb_step makeblastdb_bin db_fasta log_file1 indexExists ++
    blastp_step blastp_bin query_fasta db_fasta blastp_output num_cores log_file2 artifact

/-- Recognizes a `[Run] ...` debug line. -/
def isRunLine : LogEvent → Bool
  | LogEvent.runLine _ => true
  | _ => false

/-- Recognizes a `[Note] ...` skip line. -/
def isNoteLine : LogEvent → Bool
  | LogEvent.noteLine _ => true
  | _ => false

/-- Recognizes an `os.system` execution. -/
def isExecute : LogEvent → Bool
  | LogEvent.execute _ => true
  | _ => false

/-! ### Claim theorems for the tool invokers -/

/-- C9 counterexample: for the similarity-search step, a second invocation
with an existing non-empty artifact executes nothing but also logs nothing -
the `if` has no `else` - so across the two invocations the log holds one
`[Run]` line and zero skip notes, not one of each as claimed. -/
theorem invoker_idempotent_counterexample :
    (blastp_step "blastp" "q.faa" "db.faa" "q.blastp" 4 "blastp.log" none ++
      blastp_step "blastp" "q.faa" "db.faa" "q.blastp" 4 "blastp.log" (some 5)).countP
        isRunLine = 1 ∧
    (blastp_step "blastp" "q.faa" "db.faa" "q.blastp" 4 "blastp.log" none ++
      blastp_step "blastp" "q.faa" "db.faa" "q.blastp" 4 "blastp.log" (some 5)).countP
        isNoteLine = 0 ∧
    ¬ (blastp_step "blastp" "q.faa" "db.faa" "q.blastp" 4 "blastp.log" none ++
      blastp_step "blastp" "q.faa" "db.faa" "q.blastp" 4 "blastp.log" (some 5)).countP
        isNoteLine = 1 := by
  decide

/-- C9 (amended): a second invocation with an existing (and, for the search
tool, non-empty) target artifact never executes the external command again.
The predictor and index-build invokers log a skip note - one `[Run]` line
and one note across two invocations - while the search invoker logs nothing
on skip: one `[Run]` line and zero notes. A zero-byte search artifact counts
as not yet produced and triggers a re-run. -/
theorem invoker_idempotent (ap ma sp ao mb bb qf db bo lf1 lf2 : String) (nc n : Nat)
    (hn : ¬ n = 0) :
    ((run_augustus ap ma sp ao false ++ run_augustus ap ma sp ao true).countP isRunLine = 1 ∧
      (run_augustus ap ma sp ao false ++ run_augustus ap ma sp ao true).countP isNoteLine = 1 ∧
      (run_augustus ap ma sp ao false ++ run_augustus ap ma sp ao true).countP isExecute = 1) ∧
    ((makeblastdb_step mb db lf1 false ++ makeblastdb_step mb db lf1 true).countP
        isRunLine = 1 ∧
      (makeblastdb_step mb db lf1 false ++ makeblastdb_step mb db lf1 true).countP
        isNoteLine = 1 ∧
      (makeblastdb_step mb db lf1 false ++ makeblastdb_step mb db lf1 true).countP
        isExecute = 1) ∧
    ((blastp_step bb qf db bo nc lf2 none ++ blastp_step bb qf db bo nc lf2 (some n)).countP
        isRunLine = 1 ∧
      (blastp_step bb qf db bo nc lf2 none ++ blastp_step bb qf db bo nc lf2 (some n)).countP
        isNoteLine = 0 ∧
      (blastp_step bb qf db bo nc lf2 none ++ blastp_step bb qf db bo nc lf2 (some n)).countP
        isExecute = 1) ∧
    (blastp_step bb qf db bo nc lf2 (some 0)).countP isExecute = 1 := by
  refine ⟨⟨?_, ?_, ?_⟩, ⟨?_, ?_, ?_⟩, ⟨?_, ?_, ?_⟩, ?_⟩ <;>
    simp [run_augustus, makeblastdb_step, blastp_step, isRunLine, isNoteLine, isExecute,
      List.countP_append, List.countP_cons, hn]

/-- C9 witness: the amended idempotency statement at concrete paths and a
5-byte search artifact. -/
theorem invoker_idempotent_witness :
    ((run_augustus "a" "m" "s" "o" false ++ run_augustus "a" "m" "s" "o" true).countP
        isRunLine = 1 ∧
      (run_augustus "a" "m" "s" "o" false ++ run_augustus "a" "m" "s" "o" true).countP
        isNoteLine = 1 ∧
      (run_augustus "a" "m" "s" "o" false ++ run_augustus "a" "m" "s" "o" true).countP
        isExecute = 1) ∧
    ((makeblastdb_step "mb" "d" "l1" false ++ makeblastdb_step "mb" "d" "l1" true).countP
        isRunLine = 1 ∧
      (makeblastdb_step "mb" "d" "l1" false ++ makeblastdb_step "mb" "d" "l1" true).countP
        isNoteLine = 1 ∧
      (makeblastdb_step "mb" "d" "l1" false ++ makeblastdb_step "mb" "d" "l1" true).countP
        isExecute = 1) ∧
    ((blastp_step "b" "q" "d" "out" 4 "l2" none ++
        blastp_step "b" "q" "d" "out" 4 "l2" (some 5)).countP isRunLine = 1 ∧
      (blastp_step "b" "q" "d" "out" 4 "l2" none ++
        blastp_step "b" "q" "d" "out" 4 "l2" (some 5)).countP isNoteLine = 0 ∧
      (blastp_step "b" "q" "d" "out" 4 "l2" none ++
        blastp_step "b" "q" "d" "out" 4 "l2" (some 5)).countP isExecute = 1) ∧
    (blastp_step "b" "q" "d" "out" 4 "l2" (some 0)).countP isExecute = 1 :=
  invoker_idempotent "a" "m" "s" "o" "mb" "b" "q" "d" "out" "l1" "l2" 4 5 (by decide)

end FunGAP
